import Mathlib

/-!
Verification of the pitaya client-session agent (package `agent` plus the
`context` helpers).  The definitions below are a shallow embedding of the
Go source: the ordering stage `ordered()`, the producer entry points
`send` / `Push` / `ResponseMID`, `Close`, `Kick`, `heartbeat` and
`hbdEncode`.  External collaborators (serializer, packet codec, JSON
marshalling, compression) are passed in as function parameters, exactly
as they are injected into the agent in the source.
-/

namespace Pitaya

/-! ## Message layer (conn/message) -/

/-- The four message types of the message layer (`message.Type`). -/
inductive MsgType
  | Request
  | Notify
  | Response
  | Push
deriving DecidableEq, Repr

/-- A `pendingWrite` as seen by the ordering stage: the fields of its
`msg` that `ordered()` inspects (`Type` and `ID`), plus a tag standing
for the identity of the item (its `ctx`/`data` payload). -/
structure PendingWrite where
  tag : Nat
  typ : MsgType
  id : Nat
deriving DecidableEq, Repr

/-! ## Ordering stage state

`ordered()` owns three fields of `agentImpl`: `curMsgID`, `pushDelayMID`
and the map `pushDelay : map[uint][]pendingWrite`.  The Go map is
represented canonically as an association list sorted by strictly
increasing key; `ordered()` itself sorts the keys before walking them,
so this representation is faithful. -/

structure OrderState where
  curMsgID : Nat
  pushDelayMID : Nat
  pushDelay : List (Nat × List PendingWrite)
deriving DecidableEq, Repr

/-- The ordering-stage state of a freshly constructed agent
(`curMsgID = 0`, `pushDelayMID = 0`, empty `pushDelay`). -/
def initOrderState : OrderState := ⟨0, 0, []⟩

/-- Bucket append `a.pushDelay[tID] = append(a.pushDelay[tID], pWrite)` on the sorted
association list: append to the bucket with key `k`, inserting the
bucket at its sorted position if absent. -/
def bucketAppend : List (Nat × List PendingWrite) → Nat → PendingWrite →
    List (Nat × List PendingWrite)
  | [], k, pw => [(k, [pw])]
  | (k', vs) :: rest, k, pw =>
    if k = k' then (k', vs ++ [pw]) :: rest
    else if k < k' then (k, [pw]) :: (k', vs) :: rest
    else (k', vs) :: bucketAppend rest k pw

/-- Map lookup `val, ok := a.pushDelay[id]`. -/
def bucketGet : List (Nat × List PendingWrite) → Nat →
    Option (List PendingWrite)
  | [], _ => none
  | (k', vs) :: rest, k => if k = k' then some vs else bucketGet rest k

/-- Map deletion `delete(a.pushDelay, id)`: remove the bucket with the
given key. -/
def bucketDelete : List (Nat × List PendingWrite) → Nat →
    List (Nat × List PendingWrite)
  | [], _ => []
  | (k', vs) :: rest, k =>
    if k' = k then bucketDelete rest k
    else (k', vs) :: bucketDelete rest k

/-- The key walk at the end of the Response branch of `ordered()`:
iterate the buckets in ascending key order, `break` at the first key
`id ≥ curMsgID`, release (in insertion order) and delete every bucket
before that point.  Returns the released items, the remaining buckets,
and whether any bucket was released (each release sets
`a.pushDelayMID = 0`). -/
def releaseWalk (cur : Nat) : List (Nat × List PendingWrite) →
    List PendingWrite × List (Nat × List PendingWrite) × Bool
  | [] => ([], [], false)
  | (k, vs) :: rest =>
    if cur ≤ k then ([], (k, vs) :: rest, false)
    else
      let r := releaseWalk cur rest
      (vs ++ r.1, r.2.1, true)

/-- One iteration of the `ordered()` loop on a dequeued `pendingWrite`.
Returns the new state together with the list of items handed to the
local `send` closure (i.e. forwarded towards `chSend`), in order. -/
def orderedStep (s : OrderState) (pw : PendingWrite) :
    OrderState × List PendingWrite :=
  if pw.typ = MsgType.Push ∧ 0 < pw.id ∧ s.curMsgID < pw.id then
    ({ s with pushDelay := bucketAppend s.pushDelay pw.id pw,
              pushDelayMID := pw.id }, [])
  else if pw.typ = MsgType.Push ∧ 0 < s.pushDelayMID then
    ({ s with pushDelay := bucketAppend s.pushDelay s.pushDelayMID pw }, [])
  else if pw.typ = MsgType.Response then
    match bucketGet s.pushDelay pw.id with
    | some val =>
      let w := releaseWalk pw.id (bucketDelete s.pushDelay pw.id)
      (⟨pw.id, 0, w.2.1⟩, pw :: (val ++ w.1))
    | none =>
      let w := releaseWalk pw.id s.pushDelay
      (⟨pw.id, if w.2.2 then 0 else s.pushDelayMID, w.2.1⟩, pw :: w.1)
  else (s, [pw])

/-- Run of the ordering stage over a finite sequence of items dequeued
from `chOrder`, collecting everything forwarded to `chSend`. -/
def orderedRun (s : OrderState) : List PendingWrite →
    OrderState × List PendingWrite
  | [] => (s, [])
  | pw :: rest =>
    let r := orderedStep s pw
    let r2 := orderedRun r.1 rest
    (r2.1, r.2 ++ r2.2)

/-! ## Agent status constants (constants package collaborator)

`constants.StatusStart/...` are small distinct int32 values; only their
distinctness matters to the agent code. -/

def StatusStart : Int := 0
def StatusHandshake : Int := 1
def StatusWorking : Int := 2
def StatusClosed : Int := 3

/-! ## Error values (constants / errors package collaborators) -/

inductive GoErr
  | brokenPipe
  | closeClosedSession
  | sessionOnNotify
  | serializeErr
  | encodeErr
deriving DecidableEq, Repr

/-! ## Producer entry points: `send`, `Push`, `ResponseMID`

The producer-visible agent state: `status`, the observed length of
`chSend` (capacity `messagesBufferSize`), the contents of `chOrder`
(capacity `messagesBufferSize*10`), and whether `chDie` has fired.
`closeCalled` / `shedWarned` record the side effects of the shedding
branch of `send` (the `a.Close()` call and the warning log). -/

structure AgentProd where
  status : Int
  chSendLen : Nat
  chOrder : List (List Nat)
  messagesBufferSize : Nat
  dieFired : Bool
  closeCalled : Bool
  shedWarned : Bool
deriving DecidableEq, Repr

/-- A `pendingMessage` handed to `send`. -/
structure PendingMsg where
  typ : MsgType
  route : String
  mid : Nat
  err : Bool
deriving DecidableEq, Repr

/-- Results of the external collaborators used by `send` for one call:
`util.SerializeOrRaw` on the payload, `util.GetErrorPayload` fallback,
`messageEncoder.Encode`, and `encoder.Encode(packet.Data, ·)`. -/
structure SendEnv where
  serializeOrRaw : Option (List Nat)
  errorPayload : Option (List Nat)
  messageEncode : MsgType → Nat → String → List Nat → Option (List Nat)
  packetEncode : List Nat → Option (List Nat)

/-- Outcome of a producer call: returned a (nil or non-nil) error, or is
still blocked in the final `select` because `chOrder` is full and
`chDie` has not fired. -/
inductive SendResult
  | ok
  | err (e : GoErr)
  | blockedOnOrderQ
deriving DecidableEq, Repr

/-- The routine `agentImpl.send`.  Mirrors the source order: report the channel
metric (no state effect), check `messagesBufferSize - len(chSend) == 0`
(shed: warn, `a.Close()`, return nil), serialize (falling back to the
error payload), message-encode, packet-encode, then
`select { case chOrder <- pWrite: case <-chDie: }`.  The select is
modelled as: if `chDie` fired the item is abandoned; otherwise the item
enters `chOrder` if there is room, and the call is blocked if not. -/
def send (env : SendEnv) (a : AgentProd) (pm : PendingMsg) :
    AgentProd × SendResult :=
  if (a.messagesBufferSize : Int) - (a.chSendLen : Int) = 0 then
    ({ a with status := StatusClosed, closeCalled := true,
              shedWarned := true }, SendResult.ok)
  else
    match (match env.serializeOrRaw with
           | some payload => some payload
           | none => env.errorPayload) with
    | none => (a, SendResult.err GoErr.serializeErr)
    | some payload =>
      match env.messageEncode pm.typ pm.mid pm.route payload with
      | none => (a, SendResult.err GoErr.encodeErr)
      | some em =>
        match env.packetEncode em with
        | none => (a, SendResult.err GoErr.encodeErr)
        | some p =>
          if a.dieFired then (a, SendResult.ok)
          else if a.chOrder.length < a.messagesBufferSize * 10 then
            ({ a with chOrder := a.chOrder ++ [p] }, SendResult.ok)
          else (a, SendResult.blockedOnOrderQ)

/-- Producer `agentImpl.Push`: reject with `BrokenPipe` when Closed, read the
relation msg-id from the context, and call `send` with a Push message. -/
def pushEntry (env : SendEnv) (a : AgentProd) (relMsgID : Nat)
    (route : String) : AgentProd × SendResult :=
  if a.status = StatusClosed then (a, SendResult.err GoErr.brokenPipe)
  else send env a ⟨MsgType.Push, route, relMsgID, false⟩

/-- Producer `agentImpl.ResponseMID`: reject with `BrokenPipe` when Closed,
reject `mid <= 0` (for `uint`, `mid = 0`) with `ErrSessionOnNotify`,
read the route from the propagate context, and call `send` with a
Response message. -/
def responseMID (env : SendEnv) (a : AgentProd) (mid : Nat)
    (route : String) (isError : Bool) : AgentProd × SendResult :=
  if a.status = StatusClosed then (a, SendResult.err GoErr.brokenPipe)
  else if mid = 0 then (a, SendResult.err GoErr.sessionOnNotify)
  else send env a ⟨MsgType.Response, route, mid, isError⟩

/-! ## `Close` -/

/-- Observable side effects of `Close`, in the order they happen. -/
inductive CloseEvent
  | closeStopWrite
  | closeStopOrder
  | closeStopHeartbeat
  | closeDie
  | sessionCallback (i : Nat)
  | poolCallback (i : Nat)
  | reportMetric
  | closeConn
deriving DecidableEq, Repr

/-- The agent state that `Close` touches: status, whether `chDie` is
already closed, the registered callback counts, and the event log. -/
structure CloseAgent where
  status : Int
  dieClosed : Bool
  nSessionCbs : Nat
  nPoolCbs : Nat
  events : List CloseEvent
deriving DecidableEq, Repr

/-- Callback runner `onSessionClosed`: the session-level close callbacks in order,
then the pool-level ones. -/
def onSessionClosed (a : CloseAgent) : List CloseEvent :=
  ((List.range a.nSessionCbs).map CloseEvent.sessionCallback)
    ++ ((List.range a.nPoolCbs).map CloseEvent.poolCallback)

/-- Teardown `agentImpl.Close`, single-threaded under `closeMutex`: return
`ErrCloseClosedSession` if already Closed; otherwise set the status,
and unless `chDie` is already closed, close `chStopWrite`,
`chStopOrder`, `chStopHeartbeat`, `chDie` in that order and run the
close callbacks; then report the connection metric and close `conn`. -/
def closeAgent (a : CloseAgent) : CloseAgent × Option GoErr :=
  if a.status = StatusClosed then (a, some GoErr.closeClosedSession)
  else
    let a1 := { a with status := StatusClosed }
    let a2 :=
      if a1.dieClosed then a1
      else { a1 with
        dieClosed := true,
        events := a1.events
          ++ [CloseEvent.closeStopWrite, CloseEvent.closeStopOrder,
              CloseEvent.closeStopHeartbeat, CloseEvent.closeDie]
          ++ onSessionClosed a1 }
    ({ a2 with events := a2.events
        ++ [CloseEvent.reportMetric, CloseEvent.closeConn] }, none)

/-! ## `heartbeat` -/

/-- What the heartbeat goroutine observes on one tick: the current time
and `lastAt` (unix seconds), and which arm of the inner enqueue select
fires first (`chSend <- hbd` succeeds, or `chDie` / `chStopHeartbeat`). -/
inductive HbAttempt
  | sendOk
  | dieFires
  | stopFires
deriving DecidableEq, Repr

structure TickObs where
  now : Int
  lastAt : Int
  attempt : HbAttempt
deriving DecidableEq, Repr

/-- One wakeup of the heartbeat select loop: a ticker tick, or `chDie`
or `chStopHeartbeat` firing. -/
inductive HbSignal
  | tick (t : TickObs)
  | dieFires
  | stopFires
deriving DecidableEq, Repr

/-- The monitor `agentImpl.heartbeat` run over a finite schedule of wakeups, with
`interval` the configured `heartbeatTimeout` in seconds and `hbd` the
pre-encoded heartbeat frame.  Returns the frames enqueued onto `chSend`
and whether the goroutine returned (its deferred `a.Close()` then
fires).  On a tick, `deadline = now - 2*interval`; the goroutine exits
when `lastAt < deadline`; otherwise it enqueues `hbd`, aborting (and
exiting) if `chDie` or `chStopHeartbeat` fires first. -/
def heartbeatRun (interval : Int) (hbd : List Nat) :
    List HbSignal → List (List Nat) × Bool
  | [] => ([], false)
  | HbSignal.dieFires :: _ => ([], true)
  | HbSignal.stopFires :: _ => ([], true)
  | HbSignal.tick t :: rest =>
    if t.lastAt < t.now - 2 * interval then ([], true)
    else
      match t.attempt with
      | HbAttempt.sendOk =>
        let r := heartbeatRun interval hbd rest
        (hbd :: r.1, r.2)
      | HbAttempt.dieFires => ([], true)
      | HbAttempt.stopFires => ([], true)

/-! ## `Kick` -/

/-- Packet kinds (conn/packet collaborator). -/
inductive PacketKind
  | Handshake
  | HandshakeAck
  | Heartbeat
  | Data
  | Kick
deriving DecidableEq, Repr

/-- Outcome of `Kick`: early nil return on a closed agent; an immediate
write of the encoded kick packet (gating mid = 0); a write after the
poll loop exited at observation index `n`; or still blocked in the poll
loop after all supplied observations. -/
inductive KickOutcome
  | closedNil
  | wroteNow (data : List Nat)
  | wroteAfter (n : Nat) (data : List Nat)
  | stillBlocked
deriving DecidableEq, Repr

/-- The poll loop `for a.curMsgID <= mid { <-t.C }` applied to the
successive values of `curMsgID` observed at each evaluation of the loop
condition: the index of the first observation with `¬(cur ≤ mid)`. -/
def kickWait (mid : Nat) : List Nat → Option Nat
  | [] => none
  | c :: rest =>
    if c ≤ mid then (kickWait mid rest).map (· + 1) else some 0

/-- Entry point `agentImpl.Kick`: read the relation msg-id `mid` from the context;
return nil if the agent is Closed; if `mid > 0`, poll `curMsgID` at
1 ms granularity until the loop condition `curMsgID <= mid` fails, then
encode and write the Kick packet directly to `conn`; with `mid = 0`
encode and write immediately.  `pktEncode` is the packet encoder and
`curs` the observed `curMsgID` values. -/
def kick (pktEncode : PacketKind → List Nat → List Nat) (status : Int)
    (mid : Nat) (curs : List Nat) : KickOutcome :=
  if status = StatusClosed then KickOutcome.closedNil
  else if 0 < mid then
    match kickWait mid curs with
    | some n => KickOutcome.wroteAfter n (pktEncode PacketKind.Kick [])
    | none => KickOutcome.stillBlocked
  else KickOutcome.wroteNow (pktEncode PacketKind.Kick [])

/-! ## `hbdEncode` (handshake-response and heartbeat frames) -/

/-- The `sys` object of the handshake payload. -/
structure HSys where
  heartbeat : ℚ
  dict : List (String × Nat)
  serializer : String

/-- The handshake payload object (`hData` in the source). -/
structure HData where
  code : Nat
  sys : HSys

/-- Frame builder `hbdEncode`: build `hData` with `code = 200` and
`sys = {heartbeat: seconds, dict, serializer}`, JSON-marshal it,
replace the JSON by its deflate-compressed form when compression is
enabled and the compressed form is strictly shorter, then packet-encode
with kind Handshake; the heartbeat frame is kind Heartbeat with empty
body.  Returns `(hrd, hbd)`.  `marshal`, `deflate` and `pktEncode`
stand for `json.Marshal`, `compression.DeflateData` and
`packetEncoder.Encode` (`Duration.Seconds` is modelled exactly as a
rational). -/
def hbdEncode (marshal : HData → List Nat)
    (deflate : List Nat → List Nat)
    (pktEncode : PacketKind → List Nat → List Nat)
    (heartbeatSecs : ℚ) (dict : List (String × Nat))
    (serializerName : String) (dataCompression : Bool) :
    List Nat × List Nat :=
  let hData : HData := ⟨200, ⟨heartbeatSecs, dict, serializerName⟩⟩
  let data := marshal hData
  let data' :=
    if dataCompression then
      let compressedData := deflate data
      if compressedData.length < data.length then compressedData else data
    else data
  (pktEncode PacketKind.Handshake data', pktEncode PacketKind.Heartbeat [])

/-! ## Claim C3: what happens to `curMsgID` on a Response -/

/-- Claim C3 counterexample: `curMsgID` does decrease.  Processing a
late Response with the smaller id 3 after a Response with id 5 lowers
`curMsgID` from 5 to 3, because `ordered()` assigns
`a.curMsgID = m.ID` unconditionally. -/
theorem curMsgID_decreases_example :
    (orderedRun initOrderState
        [⟨0, MsgType.Response, 5⟩, ⟨1, MsgType.Response, 3⟩]).1.curMsgID
      < (orderedRun initOrderState [⟨0, MsgType.Response, 5⟩]).1.curMsgID := by
  decide

/-- Claim C3 (amended): the ordering stage sets `curMsgID` to the id of
every Response it processes, unconditionally; so after a Response the
value is exactly that Response's id, and a late Response with a smaller
id lowers `curMsgID` rather than leaving it unchanged. -/
theorem curMsgID_set_to_response_id (s : OrderState) (pw : PendingWrite)
    (h : pw.typ = MsgType.Response) :
    ((orderedStep s pw).1).curMsgID = pw.id := by
  unfold orderedStep
  rw [if_neg (by simp [h]), if_neg (by simp [h]), if_pos h]
  cases hbg : bucketGet s.pushDelay pw.id <;> simp [hbg]

/-- Witness for `curMsgID_set_to_response_id` at a concrete state and
Response. -/
theorem curMsgID_set_to_response_id_witness :
    (⟨7, MsgType.Response, 3⟩ : PendingWrite).typ = MsgType.Response
    ∧ ((orderedStep ⟨5, 0, []⟩ ⟨7, MsgType.Response, 3⟩).1).curMsgID
        = (⟨7, MsgType.Response, 3⟩ : PendingWrite).id :=
  ⟨rfl, curMsgID_set_to_response_id ⟨5, 0, []⟩ ⟨7, MsgType.Response, 3⟩ rfl⟩

/-! ## Claim C4: the shedding check in `send` -/

/-- Claim C4 counterexample: an agent whose `chOrder` has zero spare
capacity (10 slots, 10 items) but whose `chSend` is empty is not shed:
`send` serializes, encodes, and ends up blocked on the full `chOrder`
instead of closing the agent and returning nil.  The capacity check in
`send` reads `len(a.chSend)`, not `chOrder`. -/
theorem send_orderQ_full_no_shed_example :
    (1 * 10 - (List.replicate 10 ([] : List Nat)).length = 0)
    ∧ send ⟨some [1], none, fun _ _ _ d => some d, fun d => some d⟩
        { status := StatusWorking, chSendLen := 0,
          chOrder := List.replicate 10 [], messagesBufferSize := 1,
          dieFired := false, closeCalled := false, shedWarned := false }
        ⟨MsgType.Push, "room.update", 0, false⟩
      = ({ status := StatusWorking, chSendLen := 0,
           chOrder := List.replicate 10 [], messagesBufferSize := 1,
           dieFired := false, closeCalled := false, shedWarned := false },
         SendResult.blockedOnOrderQ)
    ∧ SendResult.blockedOnOrderQ ≠ SendResult.ok
    ∧ StatusWorking ≠ StatusClosed := by
  decide

/-- Claim C4 (amended): the queue whose observed spare capacity gates
the shed is `chSend` (`sendQ`), not `chOrder`: whenever
`messagesBufferSize - len(chSend) = 0`, `send` logs a warning, calls
`Close`, and returns nil without serializing or enqueuing the
message. -/
theorem send_sheds_on_full_chSend (env : SendEnv) (a : AgentProd)
    (pm : PendingMsg) (hopen : a.status ≠ StatusClosed)
    (hfull : (a.messagesBufferSize : Int) - (a.chSendLen : Int) = 0) :
    send env a pm
      = ({ a with status := StatusClosed, closeCalled := true,
                  shedWarned := true }, SendResult.ok) := by
  unfold send
  rw [if_pos hfull]

/-- Witness for `send_sheds_on_full_chSend` at a concrete agent with a
saturated `chSend`. -/
theorem send_sheds_on_full_chSend_witness :
    (({ status := StatusWorking, chSendLen := 2, chOrder := [],
        messagesBufferSize := 2, dieFired := false, closeCalled := false,
        shedWarned := false } : AgentProd).status ≠ StatusClosed)
    ∧ (((2 : Nat) : Int) - ((2 : Nat) : Int) = 0)
    ∧ send ⟨some [1], none, fun _ _ _ d => some d, fun d => some d⟩
        { status := StatusWorking, chSendLen := 2, chOrder := [],
          messagesBufferSize := 2, dieFired := false, closeCalled := false,
          shedWarned := false }
        ⟨MsgType.Push, "room.update", 0, false⟩
      = ({ status := StatusClosed, chSendLen := 2, chOrder := [],
           messagesBufferSize := 2, dieFired := false, closeCalled := true,
           shedWarned := true }, SendResult.ok) :=
  ⟨by decide, by decide,
    send_sheds_on_full_chSend _ _ _ (by decide) (by decide)⟩

/-! ## Claim C8: `ResponseMID` with `mid = 0` -/

/-- Claim C8: on a non-closed agent, `ResponseMID` with `mid = 0`
returns `ErrSessionOnNotify` and leaves the agent state untouched: in
particular nothing is enqueued onto `chOrder` or `chSend`. -/
theorem responseMID_zero_mid (env : SendEnv) (a : AgentProd)
    (route : String) (isError : Bool) (hopen : a.status ≠ StatusClosed) :
    responseMID env a 0 route isError
      = (a, SendResult.err GoErr.sessionOnNotify) := by
  unfold responseMID
  rw [if_neg hopen, if_pos rfl]

/-- Witness for `responseMID_zero_mid` on a concrete working agent. -/
theorem responseMID_zero_mid_witness :
    (({ status := StatusWorking, chSendLen := 0, chOrder := [],
        messagesBufferSize := 2, dieFired := false, closeCalled := false,
        shedWarned := false } : AgentProd).status ≠ StatusClosed)
    ∧ responseMID ⟨some [1], none, fun _ _ _ d => some d, fun d => some d⟩
        { status := StatusWorking, chSendLen := 0, chOrder := [],
          messagesBufferSize := 2, dieFired := false, closeCalled := false,
          shedWarned := false } 0 "room.join" false
      = ({ status := StatusWorking, chSendLen := 0, chOrder := [],
           messagesBufferSize := 2, dieFired := false, closeCalled := false,
           shedWarned := false }, SendResult.err GoErr.sessionOnNotify) :=
  ⟨by decide, responseMID_zero_mid _ _ "room.join" false (by decide)⟩

/-! ## Claim C10: `Kick` on a closed agent -/

/-- Claim C10: `Kick` on a Closed agent returns nil without writing to
`conn` (outcome `closedNil`), while `Push` and `ResponseMID` on a
Closed agent return the `BrokenPipe` error. -/
theorem kick_on_closed_agent (pktEncode : PacketKind → List Nat → List Nat)
    (mid : Nat) (curs : List Nat) (env : SendEnv) (a : AgentProd)
    (relMsgID rmid : Nat) (route : String) (isError : Bool)
    (hclosed : a.status = StatusClosed) :
    kick pktEncode StatusClosed mid curs = KickOutcome.closedNil
    ∧ pushEntry env a relMsgID route = (a, SendResult.err GoErr.brokenPipe)
    ∧ responseMID env a rmid route isError
        = (a, SendResult.err GoErr.brokenPipe) := by
  refine ⟨?_, ?_, ?_⟩
  · unfold kick; rw [if_pos rfl]
  · unfold pushEntry; rw [if_pos hclosed]
  · unfold responseMID; rw [if_pos hclosed]

/-- Witness for `kick_on_closed_agent` on a concrete closed agent. -/
theorem kick_on_closed_agent_witness :
    (({ status := StatusClosed, chSendLen := 0, chOrder := [],
        messagesBufferSize := 2, dieFired := true, closeCalled := true,
        shedWarned := false } : AgentProd).status = StatusClosed)
    ∧ (kick (fun _ body => body) StatusClosed 4 [1, 2]
          = KickOutcome.closedNil
      ∧ pushEntry ⟨some [1], none, fun _ _ _ d => some d, fun d => some d⟩
          { status := StatusClosed, chSendLen := 0, chOrder := [],
            messagesBufferSize := 2, dieFired := true, closeCalled := true,
            shedWarned := false } 4 "room.update"
        = ({ status := StatusClosed, chSendLen := 0, chOrder := [],
             messagesBufferSize := 2, dieFired := true, closeCalled := true,
             shedWarned := false }, SendResult.err GoErr.brokenPipe)
      ∧ responseMID ⟨some [1], none, fun _ _ _ d => some d, fun d => some d⟩
          { status := StatusClosed, chSendLen := 0, chOrder := [],
            messagesBufferSize := 2, dieFired := true, closeCalled := true,
            shedWarned := false } 7 "room.join" false
        = ({ status := StatusClosed, chSendLen := 0, chOrder := [],
             messagesBufferSize := 2, dieFired := true, closeCalled := true,
             shedWarned := false }, SendResult.err GoErr.brokenPipe)) :=
  ⟨by decide, kick_on_closed_agent _ 4 [1, 2] _ _ 4 7 _ false (by decide)⟩

/-! ## Claim C6: `Close` -/

/-- Claim C6 counterexample: a second call to `Close` returns the
`CloseClosedSession` error and performs no effect at all — in
particular it does not close `conn` again: the second call returns the
state unchanged, with exactly one `closeConn` event on record. -/
theorem second_close_keeps_conn_example :
    closeAgent (closeAgent ⟨StatusWorking, false, 1, 1, []⟩).1
      = ((closeAgent ⟨StatusWorking, false, 1, 1, []⟩).1,
         some GoErr.closeClosedSession)
    ∧ ((closeAgent (closeAgent ⟨StatusWorking, false, 1, 1, []⟩).1).1.events.count
         CloseEvent.closeConn = 1) := by
  decide

/-- Claim C6 (amended): the first `Close` on an open agent sets the
status to Closed, closes `chStopWrite`, `chStopOrder`,
`chStopHeartbeat`, `chDie` in that order, runs the session-level close
callbacks then the pool-level ones, reports the connection metric and
finally closes `conn`, returning nil; every later call returns the
`CloseClosedSession` error and performs none of these effects again
(it returns before reaching the `conn.Close()` call). -/
theorem close_once_effects (a : CloseAgent)
    (hopen : a.status ≠ StatusClosed) (hdie : a.dieClosed = false) :
    closeAgent a
      = ({ a with
            status := StatusClosed, dieClosed := true,
            events := a.events
              ++ ([CloseEvent.closeStopWrite, CloseEvent.closeStopOrder,
                   CloseEvent.closeStopHeartbeat, CloseEvent.closeDie]
                  ++ onSessionClosed a)
              ++ [CloseEvent.reportMetric, CloseEvent.closeConn] }, none)
    ∧ closeAgent (closeAgent a).1
      = ((closeAgent a).1, some GoErr.closeClosedSession) := by
  have h1 : closeAgent a
      = ({ a with
            status := StatusClosed, dieClosed := true,
            events := a.events
              ++ ([CloseEvent.closeStopWrite, CloseEvent.closeStopOrder,
                   CloseEvent.closeStopHeartbeat, CloseEvent.closeDie]
                  ++ onSessionClosed a)
              ++ [CloseEvent.reportMetric, CloseEvent.closeConn] }, none) := by
    unfold closeAgent
    rw [if_neg hopen]
    simp only [hdie, Bool.false_eq_true, if_false, onSessionClosed]
    simp [List.append_assoc]
  refine ⟨h1, ?_⟩
  rw [h1]
  unfold closeAgent
  rw [if_pos rfl]

/-- Witness for `close_once_effects` on a concrete open agent with one
session callback and one pool callback. -/
theorem close_once_effects_witness :
    ((⟨StatusWorking, false, 1, 1, []⟩ : CloseAgent).status ≠ StatusClosed)
    ∧ ((⟨StatusWorking, false, 1, 1, []⟩ : CloseAgent).dieClosed = false)
    ∧ (closeAgent ⟨StatusWorking, false, 1, 1, []⟩
        = ({ (⟨StatusWorking, false, 1, 1, []⟩ : CloseAgent) with
             status := StatusClosed, dieClosed := true,
             events := ([] : List CloseEvent)
               ++ ([CloseEvent.closeStopWrite, CloseEvent.closeStopOrder,
                    CloseEvent.closeStopHeartbeat, CloseEvent.closeDie]
                   ++ onSessionClosed ⟨StatusWorking, false, 1, 1, []⟩)
               ++ [CloseEvent.reportMetric, CloseEvent.closeConn] }, none)
      ∧ closeAgent (closeAgent ⟨StatusWorking, false, 1, 1, []⟩).1
        = ((closeAgent ⟨StatusWorking, false, 1, 1, []⟩).1,
           some GoErr.closeClosedSession)) :=
  ⟨by decide, rfl,
    close_once_effects ⟨StatusWorking, false, 1, 1, []⟩ (by decide) rfl⟩

/-! ## Claim C7: the heartbeat monitor -/

/-- A wakeup of the heartbeat loop that is a tick, observes a healthy
deadline, and whose enqueue attempt succeeds. -/
def healthySendTick (interval : Int) (s : HbSignal) : Prop :=
  ∃ t', s = HbSignal.tick t'
    ∧ ¬(t'.lastAt < t'.now - 2 * interval)
    ∧ t'.attempt = HbAttempt.sendOk

/-- Running the heartbeat over a front of healthy ticks enqueues one
heartbeat frame per tick and continues with the rest of the schedule. -/
theorem heartbeatRun_healthy_front (interval : Int) (hbd : List Nat)
    (front l : List HbSignal)
    (hfront : ∀ s ∈ front, healthySendTick interval s) :
    heartbeatRun interval hbd (front ++ l)
      = (List.replicate front.length hbd
          ++ (heartbeatRun interval hbd l).1,
         (heartbeatRun interval hbd l).2) := by
  induction front with
  | nil => simp
  | cons s rest ih =>
    obtain ⟨t', hs, hcond, hatt⟩ := hfront s (by simp)
    subst hs
    simp only [List.cons_append, heartbeatRun, if_neg hcond, hatt,
      List.append_eq]
    rw [ih (fun x hx => hfront x (by simp [hx]))]
    simp [List.replicate_succ]

/-- Claim C7: after any front of healthy ticks whose enqueues succeed,
on the next tick the monitor (a) exits — so its deferred `Close` fires
— as soon as `now - lastAt > 2 × heartbeatInterval`, having enqueued
exactly one pre-encoded heartbeat frame per previous tick; (b) exits
likewise if `chDie` or `chStopHeartbeat` fires during the enqueue
attempt; and (c) otherwise enqueues the heartbeat frame and keeps
running. -/
theorem heartbeat_tick_behaviour (interval : Int) (hbd : List Nat)
    (front rest : List HbSignal) (t : TickObs)
    (hfront : ∀ s ∈ front, healthySendTick interval s) :
    (2 * interval < t.now - t.lastAt →
      heartbeatRun interval hbd (front ++ HbSignal.tick t :: rest)
        = (List.replicate front.length hbd, true))
    ∧ (¬ 2 * interval < t.now - t.lastAt →
        t.attempt ≠ HbAttempt.sendOk →
      heartbeatRun interval hbd (front ++ HbSignal.tick t :: rest)
        = (List.replicate front.length hbd, true))
    ∧ (¬ 2 * interval < t.now - t.lastAt →
        t.attempt = HbAttempt.sendOk →
      heartbeatRun interval hbd (front ++ HbSignal.tick t :: rest)
        = (List.replicate front.length hbd
            ++ hbd :: (heartbeatRun interval hbd rest).1,
           (heartbeatRun interval hbd rest).2)) := by
  have hf := heartbeatRun_healthy_front interval hbd front
    (HbSignal.tick t :: rest) hfront
  refine ⟨?_, ?_, ?_⟩
  · intro htime
    rw [hf]
    have hc : t.lastAt < t.now - 2 * interval := by omega
    simp [heartbeatRun, hc]
  · intro htime hatt
    rw [hf]
    have hc : ¬ t.lastAt < t.now - 2 * interval := by omega
    cases h : t.attempt with
    | sendOk => exact absurd h hatt
    | dieFires => simp [heartbeatRun, hc, h]
    | stopFires => simp [heartbeatRun, hc, h]
  · intro htime hatt
    rw [hf]
    have hc : ¬ t.lastAt < t.now - 2 * interval := by omega
    simp [heartbeatRun, hc, hatt]

/-- Witness for `heartbeat_tick_behaviour`: one healthy tick enqueues
the frame, the next tick sees `now - lastAt = 35 > 2 × 10` and exits
with the close pending. -/
theorem heartbeat_tick_behaviour_witness :
    (2 * 10 < (130 : Int) - 95)
    ∧ heartbeatRun 10 [9]
        ([HbSignal.tick ⟨100, 95, HbAttempt.sendOk⟩]
          ++ HbSignal.tick ⟨130, 95, HbAttempt.sendOk⟩ :: [])
      = (List.replicate
          ([HbSignal.tick ⟨100, 95, HbAttempt.sendOk⟩] : List HbSignal).length
          [9], true) :=
  ⟨by decide,
    (heartbeat_tick_behaviour 10 [9]
      [HbSignal.tick ⟨100, 95, HbAttempt.sendOk⟩] []
      ⟨130, 95, HbAttempt.sendOk⟩
      (by
        intro s hs
        simp only [List.mem_singleton] at hs
        exact ⟨⟨100, 95, HbAttempt.sendOk⟩, hs, by decide, rfl⟩)).1
      (by decide)⟩

/-! ## Claim C5: `Kick` gating on `curMsgID` -/

/-- The poll loop returns no index exactly when every observed
`curMsgID` value satisfies the loop condition `cur ≤ mid`. -/
theorem kickWait_none_iff (mid : Nat) (curs : List Nat) :
    kickWait mid curs = none ↔ ∀ c ∈ curs, c ≤ mid := by
  induction curs with
  | nil => simp [kickWait]
  | cons c rest ih =>
    by_cases hc : c ≤ mid
    · rw [kickWait, if_pos hc]
      simp [Option.map_eq_none', ih, hc]
    · rw [kickWait, if_neg hc]
      simp [hc]

/-- The poll loop exits at index `n` exactly when the observation at
index `n` is strictly above `mid` and every earlier observation is at
most `mid`. -/
theorem kickWait_some_iff (mid : Nat) (curs : List Nat) (n : Nat) :
    kickWait mid curs = some n
      ↔ ((∃ c, curs[n]? = some c ∧ mid < c)
          ∧ ∀ c' ∈ curs.take n, c' ≤ mid) := by
  induction curs generalizing n with
  | nil => simp [kickWait]
  | cons c rest ih =>
    by_cases hc : c ≤ mid
    · rw [kickWait, if_pos hc]
      cases n with
      | zero =>
        simp only [Option.map_eq_some']
        constructor
        · rintro ⟨n', -, h⟩
          omega
        · rintro ⟨⟨c₀, h0, hmid⟩, -⟩
          simp only [List.getElem?_cons_zero, Option.some.injEq] at h0
          omega
      | succ n' =>
        constructor
        · intro h
          obtain ⟨m, hm, hmn⟩ := Option.map_eq_some'.mp h
          have hmn2 : m = n' := by omega
          rw [hmn2] at hm
          obtain ⟨hex, hall⟩ := (ih n').mp hm
          refine ⟨by simpa using hex, ?_⟩
          intro c' hc'
          simp only [List.take_succ_cons, List.mem_cons] at hc'
          rcases hc' with h' | h'
          · omega
          · exact hall c' h'
        · rintro ⟨hex, hall⟩
          have hex' : ∃ c₀, rest[n']? = some c₀ ∧ mid < c₀ := by
            simpa using hex
          have hall' : ∀ c' ∈ rest.take n', c' ≤ mid := by
            intro c' h'
            exact hall c' (by simp [List.take_succ_cons, h'])
          rw [(ih n').mpr ⟨hex', hall'⟩]
          rfl
    · rw [kickWait, if_neg hc]
      cases n with
      | zero =>
        simp only [List.getElem?_cons_zero, List.take_zero]
        constructor
        · intro _
          exact ⟨⟨c, rfl, by omega⟩, by simp⟩
        · intro _
          trivial
      | succ n' =>
        constructor
        · intro h
          simp at h
        · rintro ⟨-, hall⟩
          exact absurd (hall c (by simp [List.take_succ_cons])) hc

/-- Claim C5 counterexample: with gating mid 4 and `curMsgID` observed
at 4 — so `curMsgID ≥ mid` holds at the very first poll — `Kick` is
still blocked in the poll loop and has written nothing, instead of
writing the kick packet: the loop condition is `curMsgID <= mid`, which
releases only when `curMsgID` exceeds `mid` strictly. -/
theorem kick_blocks_at_equal_mid_example :
    kick (fun _ body => body) StatusWorking 4 [4]
        = KickOutcome.stillBlocked
    ∧ ((4 : Nat) ≤ 4)
    ∧ KickOutcome.stillBlocked ≠ KickOutcome.wroteAfter 0 [] := by
  refine ⟨by decide, by decide, by decide⟩

/-- Claim C5 (amended): on a non-closed agent with gating mid > 0,
`Kick` writes the encoded kick packet directly to `conn` after the
first polled observation of `curMsgID` that is strictly greater than
`mid` (every earlier observation being at most `mid`); it stays blocked
while every observation is at most `mid`; and with mid = 0 it writes
the kick packet immediately, bypassing the pipeline. -/
theorem kick_gate_strict (pktEncode : PacketKind → List Nat → List Nat)
    (status : Int) (mid : Nat) (curs : List Nat) (n : Nat)
    (hopen : status ≠ StatusClosed) (hmid : 0 < mid) :
    (kick pktEncode status mid curs
        = KickOutcome.wroteAfter n (pktEncode PacketKind.Kick [])
      ↔ (∃ c, curs[n]? = some c ∧ mid < c)
          ∧ ∀ c' ∈ curs.take n, c' ≤ mid)
    ∧ (kick pktEncode status mid curs = KickOutcome.stillBlocked
      ↔ ∀ c ∈ curs, c ≤ mid)
    ∧ kick pktEncode status 0 curs
        = KickOutcome.wroteNow (pktEncode PacketKind.Kick []) := by
  refine ⟨?_, ?_, ?_⟩
  · rw [← kickWait_some_iff mid curs n]
    unfold kick
    rw [if_neg hopen, if_pos hmid]
    cases hkw : kickWait mid curs <;> simp [hkw]
  · rw [← kickWait_none_iff mid curs]
    unfold kick
    rw [if_neg hopen, if_pos hmid]
    cases hkw : kickWait mid curs <;> simp [hkw]
  · unfold kick
    rw [if_neg hopen]
    simp

/-- Witness for `kick_gate_strict`: gating mid 4 with observations
`[4, 5]` writes the kick packet after the second observation. -/
theorem kick_gate_strict_witness :
    (StatusWorking ≠ StatusClosed) ∧ ((0 : Nat) < 4)
    ∧ ((kick (fun _ body => body) StatusWorking 4 [4, 5]
          = KickOutcome.wroteAfter 1 []
        ↔ (∃ c, ([4, 5] : List Nat)[1]? = some c ∧ 4 < c)
            ∧ ∀ c' ∈ ([4, 5] : List Nat).take 1, c' ≤ 4)
      ∧ (kick (fun _ body => body) StatusWorking 4 [4, 5]
          = KickOutcome.stillBlocked
        ↔ ∀ c ∈ ([4, 5] : List Nat), c ≤ 4)
      ∧ kick (fun _ body => body) StatusWorking 0 [4, 5]
          = KickOutcome.wroteNow []) :=
  ⟨by decide, by decide,
    kick_gate_strict (fun _ body => body) StatusWorking 4 [4, 5] 1
      (by decide) (by decide)⟩

/-! ## Claim C9: the handshake-response frame -/

/-- Claim C9: the handshake payload is the JSON marshalling of the
object with `code = 200` and `sys` holding the heartbeat interval in
seconds, the route dictionary, and the serializer name; the JSON is
replaced by its deflate-compressed form exactly when compression is
enabled and the compressed form is strictly shorter; the result is
packet-encoded with packet kind Handshake. -/
theorem handshake_frame_compression (marshal : HData → List Nat)
    (deflate : List Nat → List Nat)
    (pktEncode : PacketKind → List Nat → List Nat)
    (heartbeatSecs : ℚ) (dict : List (String × Nat))
    (serializerName : String) (dataCompression : Bool) :
    (dataCompression = true →
      (deflate (marshal ⟨200, ⟨heartbeatSecs, dict, serializerName⟩⟩)).length
          < (marshal ⟨200, ⟨heartbeatSecs, dict, serializerName⟩⟩).length →
      (hbdEncode marshal deflate pktEncode heartbeatSecs dict
          serializerName dataCompression).1
        = pktEncode PacketKind.Handshake
            (deflate (marshal ⟨200, ⟨heartbeatSecs, dict, serializerName⟩⟩)))
    ∧ (dataCompression = true →
        ¬ (deflate (marshal ⟨200, ⟨heartbeatSecs, dict, serializerName⟩⟩)).length
            < (marshal ⟨200, ⟨heartbeatSecs, dict, serializerName⟩⟩).length →
      (hbdEncode marshal deflate pktEncode heartbeatSecs dict
          serializerName dataCompression).1
        = pktEncode PacketKind.Handshake
            (marshal ⟨200, ⟨heartbeatSecs, dict, serializerName⟩⟩))
    ∧ (dataCompression = false →
      (hbdEncode marshal deflate pktEncode heartbeatSecs dict
          serializerName dataCompression).1
        = pktEncode PacketKind.Handshake
            (marshal ⟨200, ⟨heartbeatSecs, dict, serializerName⟩⟩)) := by
  refine ⟨?_, ?_, ?_⟩
  · intro hcomp hlt
    simp [hbdEncode, hcomp, hlt]
  · intro hcomp hlt
    simp [hbdEncode, hcomp, hlt]
  · intro hcomp
    simp [hbdEncode, hcomp]

/-- Witness for `handshake_frame_compression`: a 3-byte JSON and a
shorter 1-byte compressed form, with compression enabled. -/
theorem handshake_frame_compression_witness :
    (hbdEncode (fun _ => [1, 2, 3]) (fun _ => [9]) (fun _ body => body)
        5 [] "json" true).1 = [9] :=
  (handshake_frame_compression (fun _ => [1, 2, 3]) (fun _ => [9])
      (fun _ body => body) 5 [] "json" true).1 rfl (by decide)

/-! ## The pushDelay invariant: sorted association list

The canonical representation of the `pushDelay` map keeps the keys
strictly increasing; every state reachable by the ordering stage
preserves this. -/

/-- The bucket keys are strictly increasing. -/
def keysSorted (pd : List (Nat × List PendingWrite)) : Prop :=
  List.Pairwise (fun x y => x.1 < y.1) pd

instance (pd : List (Nat × List PendingWrite)) : Decidable (keysSorted pd) :=
  inferInstanceAs (Decidable
    (List.Pairwise (fun x y : Nat × List PendingWrite => x.1 < y.1) pd))

/-- The contents of the bucket with key `k` (empty when absent). -/
def bucketItems (pd : List (Nat × List PendingWrite)) (k : Nat) :
    List PendingWrite :=
  (bucketGet pd k).getD []

/-- Every bucket of `bucketAppend pd k pw` carries key `k` or was
already a bucket of `pd`. -/
theorem bucketAppend_keys :
    ∀ (pd : List (Nat × List PendingWrite)) (k : Nat) (pw : PendingWrite),
      ∀ kv ∈ bucketAppend pd k pw, kv.1 = k ∨ kv ∈ pd
  | [], k, pw => by
    intro kv hkv
    simp only [bucketAppend, List.mem_singleton] at hkv
    subst hkv
    exact Or.inl rfl
  | (k', vs) :: rest, k, pw => by
    intro kv hkv
    by_cases h1 : k = k'
    · rw [bucketAppend, if_pos h1] at hkv
      rcases List.mem_cons.mp hkv with h | h
      · subst h
        exact Or.inl h1.symm
      · exact Or.inr (List.mem_cons_of_mem _ h)
    · rw [bucketAppend, if_neg h1] at hkv
      by_cases h2 : k < k'
      · rw [if_pos h2] at hkv
        rcases List.mem_cons.mp hkv with h | h
        · subst h
          exact Or.inl rfl
        · exact Or.inr h
      · rw [if_neg h2] at hkv
        rcases List.mem_cons.mp hkv with h | h
        · subst h
          exact Or.inr (List.mem_cons_self _ _)
        · rcases bucketAppend_keys rest k pw kv h with h' | h'
          · exact Or.inl h'
          · exact Or.inr (List.mem_cons_of_mem _ h')

/-- Appending preserves sortedness. -/
theorem bucketAppend_sorted (pd : List (Nat × List PendingWrite))
    (k : Nat) (pw : PendingWrite) (hs : keysSorted pd) :
    keysSorted (bucketAppend pd k pw) := by
  induction pd with
  | nil => simp [bucketAppend, keysSorted]
  | cons hd rest ih =>
    obtain ⟨k', vs⟩ := hd
    unfold keysSorted at hs ⊢
    rw [List.pairwise_cons] at hs
    obtain ⟨hhd, hrest⟩ := hs
    by_cases h1 : k = k'
    · rw [bucketAppend, if_pos h1]
      exact List.Pairwise.cons hhd hrest
    · rw [bucketAppend, if_neg h1]
      by_cases h2 : k < k'
      · rw [if_pos h2]
        refine List.Pairwise.cons ?_ (List.Pairwise.cons hhd hrest)
        intro y hy
        rcases List.mem_cons.mp hy with h | h
        · subst h
          exact h2
        · exact lt_trans h2 (hhd y h)
      · rw [if_neg h2]
        refine List.Pairwise.cons ?_ (ih hrest)
        intro y hy
        rcases bucketAppend_keys rest k pw y hy with h | h
        · rw [h]
          omega
        · exact hhd y h

/-- Every bucket of `bucketDelete pd k` was a bucket of `pd`. -/
theorem bucketDelete_keys :
    ∀ (pd : List (Nat × List PendingWrite)) (k : Nat),
      ∀ kv ∈ bucketDelete pd k, kv ∈ pd
  | [], _ => by
    intro kv hkv
    simp [bucketDelete] at hkv
  | (k', vs) :: rest, k => by
    intro kv hkv
    by_cases h1 : k' = k
    · rw [bucketDelete, if_pos h1] at hkv
      exact List.mem_cons_of_mem _ (bucketDelete_keys rest k kv hkv)
    · rw [bucketDelete, if_neg h1] at hkv
      rcases List.mem_cons.mp hkv with h | h
      · subst h
        exact List.mem_cons_self _ _
      · exact List.mem_cons_of_mem _ (bucketDelete_keys rest k kv h)

/-- Deletion preserves sortedness. -/
theorem bucketDelete_sorted (pd : List (Nat × List PendingWrite))
    (k : Nat) (hs : keysSorted pd) : keysSorted (bucketDelete pd k) := by
  induction pd with
  | nil => exact hs
  | cons hd rest ih =>
    obtain ⟨k', vs⟩ := hd
    unfold keysSorted at hs ⊢
    rw [List.pairwise_cons] at hs
    by_cases h1 : k' = k
    · rw [bucketDelete, if_pos h1]
      exact ih hs.2
    · rw [bucketDelete, if_neg h1]
      refine List.Pairwise.cons ?_ (ih hs.2)
      intro y hy
      exact hs.1 y (bucketDelete_keys rest k y hy)

/-- The remaining buckets after a release walk are sorted. -/
theorem releaseWalk_rem_sorted (cur : Nat)
    (pd : List (Nat × List PendingWrite)) (hs : keysSorted pd) :
    keysSorted (releaseWalk cur pd).2.1 := by
  induction pd with
  | nil => exact hs
  | cons hd rest ih =>
    obtain ⟨k, vs⟩ := hd
    unfold keysSorted at hs
    rw [List.pairwise_cons] at hs
    by_cases h : cur ≤ k
    · rw [releaseWalk, if_pos h]
      exact List.Pairwise.cons hs.1 hs.2
    · rw [releaseWalk, if_neg h]
      exact ih hs.2

/-- Each step of the ordering stage preserves the sortedness of
`pushDelay`. -/
theorem orderedStep_sorted (s : OrderState) (x : PendingWrite)
    (hs : keysSorted s.pushDelay) :
    keysSorted (orderedStep s x).1.pushDelay := by
  unfold orderedStep
  by_cases h1 : x.typ = MsgType.Push ∧ 0 < x.id ∧ s.curMsgID < x.id
  · rw [if_pos h1]
    exact bucketAppend_sorted _ _ _ hs
  · rw [if_neg h1]
    by_cases h2 : x.typ = MsgType.Push ∧ 0 < s.pushDelayMID
    · rw [if_pos h2]
      exact bucketAppend_sorted _ _ _ hs
    · rw [if_neg h2]
      by_cases h3 : x.typ = MsgType.Response
      · rw [if_pos h3]
        cases hbg : bucketGet s.pushDelay x.id with
        | some val =>
          exact releaseWalk_rem_sorted _ _ (bucketDelete_sorted _ _ hs)
        | none => exact releaseWalk_rem_sorted _ _ hs
      · rw [if_neg h3]
        exact hs

/-- A run of the ordering stage preserves the sortedness of
`pushDelay`. -/
theorem orderedRun_sorted (l : List PendingWrite) (s : OrderState)
    (hs : keysSorted s.pushDelay) :
    keysSorted (orderedRun s l).1.pushDelay := by
  induction l generalizing s with
  | nil => exact hs
  | cons x rest ih => exact ih _ (orderedStep_sorted s x hs)

/-! ## Bucket membership lemmas -/

/-- A key strictly below every key of `pd` is absent from `pd`. -/
theorem bucketGet_none_of_all_gt (pd : List (Nat × List PendingWrite))
    (M : Nat) (h : ∀ kv ∈ pd, M < kv.1) : bucketGet pd M = none := by
  induction pd with
  | nil => rfl
  | cons hd rest ih =>
    obtain ⟨k', vs⟩ := hd
    have hne : ¬ (M = k') := by
      have := h (k', vs) (List.mem_cons_self _ _)
      simp only at this
      omega
    rw [bucketGet, if_neg hne]
    exact ih (fun kv hkv => h kv (List.mem_cons_of_mem _ hkv))

/-- The appended item lands in the bucket with its key. -/
theorem bucketAppend_mem_self (pd : List (Nat × List PendingWrite))
    (k : Nat) (pw : PendingWrite) :
    pw ∈ bucketItems (bucketAppend pd k pw) k := by
  induction pd with
  | nil => simp [bucketAppend, bucketItems, bucketGet]
  | cons hd rest ih =>
    obtain ⟨k', vs⟩ := hd
    by_cases h1 : k = k'
    · rw [bucketAppend, if_pos h1]
      simp [bucketItems, bucketGet, h1]
    · rw [bucketAppend, if_neg h1]
      by_cases h2 : k < k'
      · rw [if_pos h2]
        simp [bucketItems, bucketGet]
      · rw [if_neg h2]
        simpa [bucketItems, bucketGet, h1] using ih

/-- On a sorted list, `bucketAppend` never removes anything from an
existing bucket. -/
theorem bucketAppend_mem_mono (pd : List (Nat × List PendingWrite))
    (k M : Nat) (y pw : PendingWrite) (hs : keysSorted pd)
    (hmem : pw ∈ bucketItems pd M) :
    pw ∈ bucketItems (bucketAppend pd k y) M := by
  induction pd with
  | nil => simp [bucketItems, bucketGet] at hmem
  | cons hd rest ih =>
    obtain ⟨k', vs⟩ := hd
    unfold keysSorted at hs
    rw [List.pairwise_cons] at hs
    by_cases h1 : k = k'
    · rw [bucketAppend, if_pos h1]
      by_cases hM : M = k'
      · simp only [bucketItems, bucketGet, if_pos hM] at hmem ⊢
        simp only [Option.getD_some] at hmem ⊢
        exact List.mem_append_left _ hmem
      · simp only [bucketItems, bucketGet, if_neg hM] at hmem ⊢
        exact hmem
    · rw [bucketAppend, if_neg h1]
      by_cases h2 : k < k'
      · rw [if_pos h2]
        by_cases hM : M = k
        · exfalso
          have hM' : ¬ (M = k') := by omega
          simp only [bucketItems, bucketGet, if_neg hM'] at hmem
          rw [bucketGet_none_of_all_gt rest M
            (fun kv hkv => by
              have := hs.1 kv hkv
              simp only at this
              omega)] at hmem
          simp at hmem
        · simp only [bucketItems, bucketGet, if_neg hM]
          exact hmem
      · rw [if_neg h2]
        by_cases hM : M = k'
        · simp only [bucketItems, bucketGet, if_pos hM] at hmem ⊢
          exact hmem
        · simp only [bucketItems, bucketGet, if_neg hM] at hmem ⊢
          exact ih hs.2 hmem

/-- Deleting a different key leaves a bucket's lookup unchanged. -/
theorem bucketDelete_get_ne (k M : Nat) (h : ¬ (k = M)) :
    ∀ pd, bucketGet (bucketDelete pd k) M = bucketGet pd M
  | [] => rfl
  | (k', vs) :: rest => by
    by_cases hk : k' = k
    · rw [bucketDelete, if_pos hk, bucketDelete_get_ne k M h rest,
        bucketGet, if_neg (by omega)]
    · rw [bucketDelete, if_neg hk]
      by_cases hM : M = k'
      · rw [bucketGet, if_pos hM, bucketGet, if_pos hM]
      · rw [bucketGet, if_neg hM, bucketGet, if_neg hM,
          bucketDelete_get_ne k M h rest]

/-- A release walk below a bucket's key leaves that bucket's lookup
unchanged in the remainder. -/
theorem releaseWalk_rem_get (cur M : Nat) (h : cur ≤ M) :
    ∀ pd, bucketGet (releaseWalk cur pd).2.1 M = bucketGet pd M
  | [] => rfl
  | (k, vs) :: rest => by
    by_cases hk : cur ≤ k
    · rw [releaseWalk, if_pos hk]
    · rw [releaseWalk, if_neg hk]
      have hne : ¬ (M = k) := by omega
      rw [bucketGet, if_neg hne]
      exact releaseWalk_rem_get cur M h rest

/-- Processing any item that is not a Response with id `≥ M` keeps
every member of bucket `M` in bucket `M`. -/
theorem orderedStep_preserves_mem (s : OrderState) (x pw : PendingWrite)
    (M : Nat) (hs : keysSorted s.pushDelay)
    (hx : ¬ (x.typ = MsgType.Response ∧ M ≤ x.id))
    (hmem : pw ∈ bucketItems s.pushDelay M) :
    pw ∈ bucketItems (orderedStep s x).1.pushDelay M := by
  unfold orderedStep
  by_cases h1 : x.typ = MsgType.Push ∧ 0 < x.id ∧ s.curMsgID < x.id
  · rw [if_pos h1]
    exact bucketAppend_mem_mono _ _ _ _ _ hs hmem
  · rw [if_neg h1]
    by_cases h2 : x.typ = MsgType.Push ∧ 0 < s.pushDelayMID
    · rw [if_pos h2]
      exact bucketAppend_mem_mono _ _ _ _ _ hs hmem
    · rw [if_neg h2]
      by_cases h3 : x.typ = MsgType.Response
      · rw [if_pos h3]
        have hlt : x.id < M := by
          by_contra hcon
          exact hx ⟨h3, by omega⟩
        cases hbg : bucketGet s.pushDelay x.id with
        | some val =>
          show pw ∈ bucketItems
            (releaseWalk x.id (bucketDelete s.pushDelay x.id)).2.1 M
          unfold bucketItems at hmem ⊢
          rw [releaseWalk_rem_get x.id M (by omega),
            bucketDelete_get_ne x.id M (by omega)]
          exact hmem
        | none =>
          show pw ∈ bucketItems (releaseWalk x.id s.pushDelay).2.1 M
          unfold bucketItems at hmem ⊢
          rw [releaseWalk_rem_get x.id M (by omega)]
          exact hmem
      · rw [if_neg h3]
        exact hmem

/-- Running the ordering stage over items none of which is a Response
with id `≥ M` keeps every member of bucket `M` in bucket `M`. -/
theorem orderedRun_preserves_mem (M : Nat) (pw : PendingWrite)
    (l : List PendingWrite) (s : OrderState)
    (hs : keysSorted s.pushDelay)
    (hl : ∀ x ∈ l, ¬ (x.typ = MsgType.Response ∧ M ≤ x.id))
    (hmem : pw ∈ bucketItems s.pushDelay M) :
    pw ∈ bucketItems (orderedRun s l).1.pushDelay M := by
  induction l generalizing s with
  | nil => exact hmem
  | cons x rest ih =>
    exact ih (orderedStep s x).1 (orderedStep_sorted s x hs)
      (fun y hy => hl y (List.mem_cons_of_mem _ hy))
      (orderedStep_preserves_mem s x pw M hs
        (hl x (List.mem_cons_self _ _)) hmem)

/-! ## Run decomposition lemmas -/

/-- Splitting a run at a list append. -/
theorem orderedRun_append (s : OrderState) (l1 l2 : List PendingWrite) :
    orderedRun s (l1 ++ l2)
      = ((orderedRun (orderedRun s l1).1 l2).1,
         (orderedRun s l1).2 ++ (orderedRun (orderedRun s l1).1 l2).2) := by
  induction l1 generalizing s with
  | nil => simp [orderedRun]
  | cons x rest ih =>
    simp only [List.cons_append, orderedRun, List.append_eq]
    rw [ih]
    simp [List.append_assoc]

/-- The forwarded output of a run over an append. -/
theorem orderedRun_append_out (s : OrderState) (l1 l2 : List PendingWrite) :
    (orderedRun s (l1 ++ l2)).2
      = (orderedRun s l1).2 ++ (orderedRun (orderedRun s l1).1 l2).2 := by
  rw [orderedRun_append]

/-- The forwarded output of a run over a cons. -/
theorem orderedRun_cons_out (s : OrderState) (x : PendingWrite)
    (l : List PendingWrite) :
    (orderedRun s (x :: l)).2
      = (orderedStep s x).2 ++ (orderedRun (orderedStep s x).1 l).2 := rfl

/-- A Push whose id is positive and above `curMsgID` is deferred into
the bucket carrying its own id, which becomes the gate. -/
theorem orderedStep_push_defer (s : OrderState) (p : PendingWrite)
    (hp : p.typ = MsgType.Push) (h0 : 0 < p.id) (hc : s.curMsgID < p.id) :
    orderedStep s p
      = ({ s with pushDelay := bucketAppend s.pushDelay p.id p,
                  pushDelayMID := p.id }, []) := by
  unfold orderedStep
  rw [if_pos ⟨hp, h0, hc⟩]

/-- Processing a Response whose bucket exists forwards the Response,
then the bucket in insertion order, then the walk releases. -/
theorem orderedStep_response_exact (s : OrderState) (r : PendingWrite)
    (hr : r.typ = MsgType.Response) (val : List PendingWrite)
    (hget : bucketGet s.pushDelay r.id = some val) :
    orderedStep s r
      = (⟨r.id, 0, (releaseWalk r.id (bucketDelete s.pushDelay r.id)).2.1⟩,
         r :: (val ++ (releaseWalk r.id (bucketDelete s.pushDelay r.id)).1)) := by
  unfold orderedStep
  rw [if_neg (by simp [hr]), if_neg (by simp [hr]), if_pos hr, hget]

/-- A member of `bucketItems pd M` comes from a present bucket. -/
theorem mem_bucketItems_elim {pd : List (Nat × List PendingWrite)}
    {M : Nat} {pw : PendingWrite} (h : pw ∈ bucketItems pd M) :
    ∃ l, bucketGet pd M = some l ∧ pw ∈ l := by
  unfold bucketItems at h
  cases hbg : bucketGet pd M with
  | none =>
    rw [hbg] at h
    simp at h
  | some l =>
    rw [hbg] at h
    exact ⟨l, rfl, h⟩

/-! ## Filter characterization of the release walk (for claim C2) -/

/-- On a sorted list, the walk releases the items of exactly the
buckets with key below `cur`, in ascending key order, each bucket in
insertion order. -/
theorem releaseWalk_out_filter (cur : Nat) :
    ∀ pd, keysSorted pd →
      (releaseWalk cur pd).1
        = ((pd.filter (fun kv => kv.1 < cur)).map Prod.snd).flatten
  | [] => fun _ => rfl
  | (k, vs) :: rest => by
    intro hs
    unfold keysSorted at hs
    rw [List.pairwise_cons] at hs
    by_cases hk : cur ≤ k
    · rw [releaseWalk, if_pos hk]
      have hnil : ((k, vs) :: rest).filter (fun kv => kv.1 < cur) = [] := by
        rw [List.filter_eq_nil_iff]
        intro kv hkv
        rcases List.mem_cons.mp hkv with h | h
        · subst h
          show ¬ (decide (k < cur) = true)
          simp only [decide_eq_true_eq]
          omega
        · have h2 : k < kv.1 := hs.1 kv h
          simp only [decide_eq_true_eq]
          omega
      rw [hnil]
      rfl
    · rw [releaseWalk, if_neg hk]
      rw [List.filter_cons_of_pos (by
        show decide (k < cur) = true
        simp only [decide_eq_true_eq]
        omega)]
      simp only [List.map_cons, List.flatten_cons]
      rw [← releaseWalk_out_filter cur rest hs.2]

/-- On a sorted list, the walk keeps exactly the buckets with key at
least `cur`. -/
theorem releaseWalk_rem_filter (cur : Nat) :
    ∀ pd, keysSorted pd →
      (releaseWalk cur pd).2.1 = pd.filter (fun kv => cur ≤ kv.1)
  | [] => fun _ => rfl
  | (k, vs) :: rest => by
    intro hs
    unfold keysSorted at hs
    rw [List.pairwise_cons] at hs
    by_cases hk : cur ≤ k
    · rw [releaseWalk, if_pos hk]
      have hall : ((k, vs) :: rest).filter (fun kv => cur ≤ kv.1)
          = (k, vs) :: rest := by
        rw [List.filter_eq_self]
        intro kv hkv
        rcases List.mem_cons.mp hkv with h | h
        · subst h
          show decide (cur ≤ k) = true
          simp only [decide_eq_true_eq]
          omega
        · have h2 : k < kv.1 := hs.1 kv h
          simp only [decide_eq_true_eq]
          omega
      rw [hall]
    · rw [releaseWalk, if_neg hk]
      rw [List.filter_cons_of_neg (by
        show ¬ (decide (cur ≤ k) = true)
        simp only [decide_eq_true_eq]
        omega)]
      exact releaseWalk_rem_filter cur rest hs.2

/-- On a sorted list, the buckets whose key equals `M` flatten to the
lookup of `M`. -/
theorem filter_eq_key_flatten (M : Nat) :
    ∀ pd, keysSorted pd →
      ((pd.filter (fun kv => kv.1 = M)).map Prod.snd).flatten
        = bucketItems pd M
  | [] => fun _ => rfl
  | (k, vs) :: rest => by
    intro hs
    unfold keysSorted at hs
    rw [List.pairwise_cons] at hs
    by_cases hM : k = M
    · rw [List.filter_cons_of_pos (by
        show decide (k = M) = true
        simp [hM])]
      have hnil : rest.filter (fun kv => kv.1 = M) = [] := by
        rw [List.filter_eq_nil_iff]
        intro kv hkv
        have h2 : k < kv.1 := hs.1 kv hkv
        simp only [decide_eq_true_eq]
        omega
      rw [hnil]
      unfold bucketItems
      rw [bucketGet, if_pos hM.symm]
      simp
    · rw [List.filter_cons_of_neg (by
        show ¬ (decide (k = M) = true)
        simp [hM])]
      unfold bucketItems
      rw [bucketGet, if_neg (fun hcon => hM hcon.symm)]
      exact filter_eq_key_flatten M rest hs.2

/-- Deleting the bucket with key `M` does not change which buckets
have key below `M`. -/
theorem bucketDelete_filter_lt (M : Nat) :
    ∀ pd, (bucketDelete pd M).filter (fun kv => kv.1 < M)
      = pd.filter (fun kv => kv.1 < M)
  | [] => rfl
  | (k, vs) :: rest => by
    by_cases hk : k = M
    · rw [bucketDelete, if_pos hk,
        List.filter_cons_of_neg (by
          show ¬ (decide (k < M) = true)
          simp [hk]),
        bucketDelete_filter_lt M rest]
    · rw [bucketDelete, if_neg hk]
      by_cases hlt : k < M
      · rw [List.filter_cons_of_pos (by
            show decide (k < M) = true
            simp [hlt]),
          List.filter_cons_of_pos (by
            show decide (k < M) = true
            simp [hlt]),
          bucketDelete_filter_lt M rest]
      · rw [List.filter_cons_of_neg (by
            show ¬ (decide (k < M) = true)
            simp [hlt]),
          List.filter_cons_of_neg (by
            show ¬ (decide (k < M) = true)
            simp [hlt]),
          bucketDelete_filter_lt M rest]

/-- After deleting the bucket with key `M`, the keys at least `M` are
exactly the keys strictly above `M`. -/
theorem bucketDelete_filter_le (M : Nat) :
    ∀ pd, (bucketDelete pd M).filter (fun kv => M ≤ kv.1)
      = pd.filter (fun kv => M < kv.1)
  | [] => rfl
  | (k, vs) :: rest => by
    by_cases hk : k = M
    · rw [bucketDelete, if_pos hk,
        List.filter_cons_of_neg (by
          show ¬ (decide (M < k) = true)
          simp [hk]),
        bucketDelete_filter_le M rest]
    · rw [bucketDelete, if_neg hk]
      by_cases hle : M ≤ k
      · rw [List.filter_cons_of_pos (by
            show decide (M ≤ k) = true
            simp [hle]),
          List.filter_cons_of_pos (by
            show decide (M < k) = true
            simp only [decide_eq_true_eq]
            omega),
          bucketDelete_filter_le M rest]
      · rw [List.filter_cons_of_neg (by
            show ¬ (decide (M ≤ k) = true)
            simp [hle]),
          List.filter_cons_of_neg (by
            show ¬ (decide (M < k) = true)
            simp only [decide_eq_true_eq]
            omega),
          bucketDelete_filter_le M rest]

/-- When the lookup of `M` fails, no bucket carries key `M`. -/
theorem bucketGet_none_keys (M : Nat) :
    ∀ pd, bucketGet pd M = none → ∀ kv ∈ pd, ¬ (kv.1 = M)
  | [] => by
    intro _ kv hkv
    simp at hkv
  | (k, vs) :: rest => by
    intro hnone kv hkv
    by_cases hM : M = k
    · rw [bucketGet, if_pos hM] at hnone
      exact Option.noConfusion hnone
    · rw [bucketGet, if_neg hM] at hnone
      rcases List.mem_cons.mp hkv with h | h
      · subst h
        intro hcon
        have h2 : k = M := hcon
        omega
      · exact bucketGet_none_keys M rest hnone kv h

/-! ## Claim C2: the release order on a Response -/

/-- Claim C2 counterexample: with deferred push buckets 2, 3 and 5,
processing the Response with id 5 forwards, after the Response itself,
bucket 5 first (the exact-id bucket), then buckets 2 and 3 — not the
buckets in ascending key order 2, 3, 5 claimed. -/
theorem release_order_example :
    (orderedRun initOrderState
        [⟨1, MsgType.Push, 2⟩, ⟨2, MsgType.Push, 3⟩, ⟨3, MsgType.Push, 5⟩,
         ⟨4, MsgType.Response, 5⟩]).2
      = [⟨4, MsgType.Response, 5⟩, ⟨3, MsgType.Push, 5⟩,
         ⟨1, MsgType.Push, 2⟩, ⟨2, MsgType.Push, 3⟩]
    ∧ ([⟨4, MsgType.Response, 5⟩, ⟨3, MsgType.Push, 5⟩,
         ⟨1, MsgType.Push, 2⟩, ⟨2, MsgType.Push, 3⟩] :
        List PendingWrite)
      ≠ [⟨4, MsgType.Response, 5⟩, ⟨1, MsgType.Push, 2⟩,
         ⟨2, MsgType.Push, 3⟩, ⟨3, MsgType.Push, 5⟩] := by
  refine ⟨by decide, by decide⟩

/-- Claim C2 (amended): when the ordering stage processes a Response
with id `M`, it forwards the Response itself, then the items of the
bucket with key exactly `M` (in insertion order), then the items of the
buckets with key strictly below `M` in ascending key order (each in
insertion order); the released buckets are deleted and exactly the
buckets with key strictly above `M` remain. -/
theorem response_release_order (s : OrderState) (r : PendingWrite)
    (hs : keysSorted s.pushDelay) (hr : r.typ = MsgType.Response) :
    (orderedStep s r).2
      = r :: (((s.pushDelay.filter (fun kv => kv.1 = r.id)).map
            Prod.snd).flatten
          ++ ((s.pushDelay.filter (fun kv => kv.1 < r.id)).map
            Prod.snd).flatten)
    ∧ (orderedStep s r).1.pushDelay
      = s.pushDelay.filter (fun kv => r.id < kv.1) := by
  cases hbg : bucketGet s.pushDelay r.id with
  | some val =>
    rw [orderedStep_response_exact s r hr val hbg]
    constructor
    · have h1 : ((s.pushDelay.filter (fun kv => kv.1 = r.id)).map
          Prod.snd).flatten = val := by
        rw [filter_eq_key_flatten r.id s.pushDelay hs]
        unfold bucketItems
        rw [hbg]
        rfl
      have h2 : (releaseWalk r.id (bucketDelete s.pushDelay r.id)).1
          = ((s.pushDelay.filter (fun kv => kv.1 < r.id)).map
            Prod.snd).flatten := by
        rw [releaseWalk_out_filter r.id (bucketDelete s.pushDelay r.id)
            (bucketDelete_sorted _ _ hs),
          bucketDelete_filter_lt]
      rw [h1, ← h2]
    · show (releaseWalk r.id (bucketDelete s.pushDelay r.id)).2.1 = _
      rw [releaseWalk_rem_filter r.id (bucketDelete s.pushDelay r.id)
          (bucketDelete_sorted _ _ hs),
        bucketDelete_filter_le]
  | none =>
    have hstep : orderedStep s r
        = (⟨r.id,
            if (releaseWalk r.id s.pushDelay).2.2 then 0
            else s.pushDelayMID,
            (releaseWalk r.id s.pushDelay).2.1⟩,
           r :: (releaseWalk r.id s.pushDelay).1) := by
      unfold orderedStep
      rw [if_neg (by simp [hr]), if_neg (by simp [hr]), if_pos hr, hbg]
    rw [hstep]
    constructor
    · have h1 : ((s.pushDelay.filter (fun kv => kv.1 = r.id)).map
          Prod.snd).flatten = [] := by
        rw [filter_eq_key_flatten r.id s.pushDelay hs]
        unfold bucketItems
        rw [hbg]
        rfl
      have h2 : (releaseWalk r.id s.pushDelay).1
          = ((s.pushDelay.filter (fun kv => kv.1 < r.id)).map
            Prod.snd).flatten :=
        releaseWalk_out_filter r.id s.pushDelay hs
      rw [h1, ← h2]
      simp
    · show (releaseWalk r.id s.pushDelay).2.1 = _
      rw [releaseWalk_rem_filter r.id s.pushDelay hs]
      refine List.filter_congr ?_
      intro kv hkv
      have hne := bucketGet_none_keys r.id s.pushDelay hbg kv hkv
      show decide (r.id ≤ kv.1) = decide (r.id < kv.1)
      refine decide_eq_decide.mpr ?_
      omega

/-- Witness for `response_release_order` at the concrete state with
buckets 2, 3 and 5 and the Response with id 5. -/
theorem response_release_order_witness :
    keysSorted (⟨0, 5,
        [(2, [⟨1, MsgType.Push, 2⟩]), (3, [⟨2, MsgType.Push, 3⟩]),
         (5, [⟨3, MsgType.Push, 5⟩])]⟩ : OrderState).pushDelay
    ∧ (⟨4, MsgType.Response, 5⟩ : PendingWrite).typ = MsgType.Response
    ∧ ((orderedStep ⟨0, 5,
          [(2, [⟨1, MsgType.Push, 2⟩]), (3, [⟨2, MsgType.Push, 3⟩]),
           (5, [⟨3, MsgType.Push, 5⟩])]⟩ ⟨4, MsgType.Response, 5⟩).2
        = (⟨4, MsgType.Response, 5⟩ : PendingWrite)
          :: ((([(2, [⟨1, MsgType.Push, 2⟩]), (3, [⟨2, MsgType.Push, 3⟩]),
               (5, [⟨3, MsgType.Push, 5⟩])].filter
                (fun kv => kv.1 = (⟨4, MsgType.Response, 5⟩ : PendingWrite).id)).map
              Prod.snd).flatten
            ++ (([(2, [⟨1, MsgType.Push, 2⟩]), (3, [⟨2, MsgType.Push, 3⟩]),
               (5, [⟨3, MsgType.Push, 5⟩])].filter
                (fun kv => kv.1 < (⟨4, MsgType.Response, 5⟩ : PendingWrite).id)).map
              Prod.snd).flatten)
      ∧ (orderedStep ⟨0, 5,
          [(2, [⟨1, MsgType.Push, 2⟩]), (3, [⟨2, MsgType.Push, 3⟩]),
           (5, [⟨3, MsgType.Push, 5⟩])]⟩ ⟨4, MsgType.Response, 5⟩).1.pushDelay
        = [(2, [⟨1, MsgType.Push, 2⟩]), (3, [⟨2, MsgType.Push, 3⟩]),
           (5, [⟨3, MsgType.Push, 5⟩])].filter
            (fun kv => (⟨4, MsgType.Response, 5⟩ : PendingWrite).id < kv.1)) :=
  ⟨by decide, rfl,
    response_release_order ⟨0, 5,
        [(2, [⟨1, MsgType.Push, 2⟩]), (3, [⟨2, MsgType.Push, 3⟩]),
         (5, [⟨3, MsgType.Push, 5⟩])]⟩ ⟨4, MsgType.Response, 5⟩
      (by decide) rfl⟩

/-! ## Claim C1: the ordering contract -/

/-- Index of the element exposed by an append-cons decomposition. -/
theorem getElem_append_cons_len (a : PendingWrite) :
    ∀ (l1 t : List PendingWrite), (l1 ++ a :: t)[l1.length]? = some a
  | [], _ => by simp
  | x :: rest, t => by
    simpa using getElem_append_cons_len a rest t

/-- An append-cons-append-cons decomposition yields two ordered
indices. -/
theorem decomp_indices (l l1 l2 l3 : List PendingWrite)
    (a b : PendingWrite) (h : l = l1 ++ a :: l2 ++ b :: l3) :
    ∃ n m : Nat, n < m ∧ l[n]? = some a ∧ l[m]? = some b := by
  refine ⟨l1.length, l1.length + l2.length + 1, by omega, ?_, ?_⟩
  · have h' : l = l1 ++ a :: (l2 ++ b :: l3) := by
      rw [h]
      simp [List.append_assoc]
    rw [h']
    exact getElem_append_cons_len a l1 (l2 ++ b :: l3)
  · rw [h]
    have h3 : (l1 ++ a :: l2).length = l1.length + l2.length + 1 := by
      simp only [List.length_append, List.length_cons]
      omega
    rw [← h3]
    exact getElem_append_cons_len b (l1 ++ a :: l2) l3

/-- Claim C1 counterexample: in the sequence Response(5), Push(3),
Response(3), the Push with id 3 is enqueued strictly before the
Response with id 3, yet the ordering stage forwards the Push strictly
before that Response (the Push arrives when `curMsgID` is already 5, so
it is forwarded immediately). -/
theorem ordering_violation_example :
    ¬ ∃ l1 l2 l3,
      (orderedRun initOrderState
          [⟨10, MsgType.Response, 5⟩, ⟨11, MsgType.Push, 3⟩,
           ⟨12, MsgType.Response, 3⟩]).2
        = l1 ++ (⟨12, MsgType.Response, 3⟩ : PendingWrite)
            :: l2 ++ (⟨11, MsgType.Push, 3⟩ : PendingWrite) :: l3 := by
  rintro ⟨l1, l2, l3, h⟩
  have hout : (orderedRun initOrderState
      [⟨10, MsgType.Response, 5⟩, ⟨11, MsgType.Push, 3⟩,
       ⟨12, MsgType.Response, 3⟩]).2
      = [⟨10, MsgType.Response, 5⟩, ⟨11, MsgType.Push, 3⟩,
         ⟨12, MsgType.Response, 3⟩] := by decide
  rw [hout] at h
  obtain ⟨n, m, hnm, hn, hm⟩ := decomp_indices _ l1 l2 l3 _ _ h
  have hn3 : n < 3 := by
    by_contra hcon
    rw [List.getElem?_eq_none (by
      simp only [List.length_cons, List.length_nil]
      omega)] at hn
    exact Option.noConfusion hn
  interval_cases n
  · exact absurd hn (by decide)
  · exact absurd hn (by decide)
  · have hm3 : m < 3 := by
      by_contra hcon
      rw [List.getElem?_eq_none (by
        simp only [List.length_cons, List.length_nil]
        omega)] at hm
      exact Option.noConfusion hm
    omega

/-- Claim C1 (amended): the ordering contract holds for a Push with id
`M` provided the Push is processed while `curMsgID` is still below `M`
(so the Push is deferred) and no Response with id at least `M` is
processed between the Push and the Response with id `M`: the Push is
then forwarded to `chSend` strictly after that Response. -/
theorem ordering_gated_push_after_response
    (front mids post : List PendingWrite) (p r : PendingWrite) (M : Nat)
    (hp : p.typ = MsgType.Push) (hpid : p.id = M)
    (hr : r.typ = MsgType.Response) (hrid : r.id = M)
    (hcur : (orderedRun initOrderState front).1.curMsgID < M)
    (hmids : ∀ x ∈ mids, ¬ (x.typ = MsgType.Response ∧ M ≤ x.id)) :
    ∃ l1 l2 l3,
      (orderedRun initOrderState (front ++ p :: (mids ++ r :: post))).2
        = l1 ++ r :: l2 ++ p :: l3 := by
  have hsorted1 : keysSorted (orderedRun initOrderState front).1.pushDelay :=
    orderedRun_sorted front initOrderState List.Pairwise.nil
  have hstep := orderedStep_push_defer (orderedRun initOrderState front).1 p
    hp (by omega) (by omega)
  have hstep2 : (orderedStep (orderedRun initOrderState front).1 p).2 = [] := by
    rw [hstep]
  have hmem2 : p ∈ bucketItems
      (orderedStep (orderedRun initOrderState front).1 p).1.pushDelay M := by
    rw [hstep]
    show p ∈ bucketItems
      (bucketAppend (orderedRun initOrderState front).1.pushDelay p.id p) M
    rw [hpid]
    exact bucketAppend_mem_self _ M p
  have hsorted2 : keysSorted
      (orderedStep (orderedRun initOrderState front).1 p).1.pushDelay :=
    orderedStep_sorted _ p hsorted1
  have hmem3 : p ∈ bucketItems
      (orderedRun (orderedStep (orderedRun initOrderState front).1 p).1
        mids).1.pushDelay M :=
    orderedRun_preserves_mem M p mids _ hsorted2 hmids hmem2
  obtain ⟨val, hget, hpval⟩ := mem_bucketItems_elim hmem3
  have hstepR2 : (orderedStep (orderedRun
        (orderedStep (orderedRun initOrderState front).1 p).1 mids).1 r).2
      = r :: (val ++ (releaseWalk r.id (bucketDelete
          (orderedRun (orderedStep (orderedRun initOrderState front).1 p).1
            mids).1.pushDelay r.id)).1) := by
    rw [orderedStep_response_exact _ r hr val (by rw [hrid]; exact hget)]
  obtain ⟨v1, v2, hval⟩ := List.append_of_mem hpval
  refine ⟨(orderedRun initOrderState front).2
      ++ (orderedRun (orderedStep (orderedRun initOrderState front).1 p).1
        mids).2,
    v1,
    v2 ++ (releaseWalk r.id (bucketDelete
        (orderedRun (orderedStep (orderedRun initOrderState front).1 p).1
          mids).1.pushDelay r.id)).1
      ++ (orderedRun (orderedStep (orderedRun
          (orderedStep (orderedRun initOrderState front).1 p).1 mids).1
          r).1 post).2,
    ?_⟩
  rw [orderedRun_append_out, orderedRun_cons_out, hstep2,
    orderedRun_append_out, orderedRun_cons_out, hstepR2, hval]
  simp [List.append_assoc]

/-- Witness for `ordering_gated_push_after_response`: the two-item
sequence Push(3), Response(3) from the initial state; the run forwards
the Response first and the Push after it. -/
theorem ordering_gated_push_after_response_witness :
    ((orderedRun initOrderState []).1.curMsgID < 3)
    ∧ ∃ l1 l2 l3,
        (orderedRun initOrderState
            ([] ++ (⟨1, MsgType.Push, 3⟩ : PendingWrite)
              :: ([] ++ (⟨2, MsgType.Response, 3⟩ : PendingWrite) :: []))).2
          = l1 ++ (⟨2, MsgType.Response, 3⟩ : PendingWrite)
              :: l2 ++ (⟨1, MsgType.Push, 3⟩ : PendingWrite) :: l3 :=
  ⟨by decide,
    ordering_gated_push_after_response [] [] [] ⟨1, MsgType.Push, 3⟩
      ⟨2, MsgType.Response, 3⟩ 3 rfl rfl rfl rfl (by decide)
      (fun x hx => absurd hx (List.not_mem_nil x))⟩

end Pitaya
